import Mathlib

set_option maxHeartbeats 1000000
set_option maxRecDepth 4000

/-
Verification development for tzipfsbackup: a Node.js tool that builds a
content-addressed manifest of Tezos token assets from remote metadata
records, synchronizes a local backup of the referenced IPFS objects, and
verifies backup integrity by recomputing each object's content address.

The definitions below are a shallow embedding of the current script
(the variant holding getTokenData / localBackup / checkLocalBackup /
cidList / main).  External collaborators (the WHATWG URL parser, the
objkt.com discovery service, the ipget fetch tool and the ipfs hashing
tool, the filesystem) are passed in as explicit oracles; string-keyed
JavaScript objects used as maps and sets are modeled as association
lists keyed by strings (prototype-chain key collisions such as the key
"constructor", which lie outside the content-address alphabet, are not
modeled).
-/

/-- Model of JavaScript `String.prototype.startsWith`:
`strStartsWith p s` is `s.startsWith(p)`. -/
def strStartsWith (p s : String) : Bool := p.data.isPrefixOf s.data

/-- Characters rejected inside a URL authority by the WHATWG parser
(the fragment of the "forbidden host code point" set relevant here). -/
def hostRejectChar (c : Char) : Bool :=
  c = ' ' ∨ c = '\t' ∨ c = '\n' ∨ c = '\r' ∨ c = '<' ∨ c = '>' ∨ c = '@' ∨
  c = '[' ∨ c = ']' ∨ c = '^' ∨ c = '|' ∨ c = '\\' ∨ c = ':'

/-- Partial model of the external WHATWG URL parser as used by the script:
`urlHostModel s` is `new URL(s).host` for the `ipfs:` URIs the program feeds
it.  For `ipfs://<authority>...` it returns the authority component in the
common case (no userinfo, no port); it returns `none` both for inputs the
real parser rejects with a `TypeError` (authorities holding forbidden host
code points such as spaces) and for authority forms outside the modeled
fragment (`:` or `@`, which never occur in content identifiers).  The
operational models below are parameterized over an arbitrary
`urlHost : String → Option String` oracle; this concrete model only
instantiates that oracle in concrete evaluations. -/
def urlHostModel (s : String) : Option String :=
  if strStartsWith "ipfs://" s then
    let auth := (s.data.drop 7).takeWhile fun c => ¬ (c = '/' ∨ c = '?' ∨ c = '#')
    if auth.any hostRejectChar then none else some (String.mk auth)
  else if strStartsWith "ipfs:" s then some ""
  else none

/-- A raw token record as returned by the objkt.com GraphQL discovery
service: display name, collection (`fa.name`), the four URI fields, and the
pagination key `pk`. -/
structure Token where
  name : String
  faName : String
  artifact_uri : Option String
  display_uri : Option String
  thumbnail_uri : Option String
  metadata : Option String
  pk : Nat
deriving DecidableEq

/-- The four field roles the script iterates over, in its fixed order:
`['artifact_uri', 'display_uri', 'thumbnail_uri', 'metadata']`. -/
inductive FieldKey where
  | artifact_uri
  | display_uri
  | thumbnail_uri
  | metadata
deriving DecidableEq

def fieldKeys : List FieldKey :=
  [.artifact_uri, .display_uri, .thumbnail_uri, .metadata]

/-- `t[k]` for a raw token record. -/
def Token.get (t : Token) : FieldKey → Option String
  | .artifact_uri => t.artifact_uri
  | .display_uri => t.display_uri
  | .thumbnail_uri => t.thumbnail_uri
  | .metadata => t.metadata

/-- A manifest entry (the object `o` pushed onto `index`): name, type
(collection name), and each URI field present only when the source value
used the `ipfs:` scheme. -/
structure IndexEntry where
  name : String
  type : String
  artifact_uri : Option String
  display_uri : Option String
  thumbnail_uri : Option String
  metadata : Option String
deriving DecidableEq

/-- `o[k]` for a manifest entry; `k in o` is `(o.get k).isSome`. -/
def IndexEntry.get (o : IndexEntry) : FieldKey → Option String
  | .artifact_uri => o.artifact_uri
  | .display_uri => o.display_uri
  | .thumbnail_uri => o.thumbnail_uri
  | .metadata => o.metadata

/-- `if (t[k]?.startsWith('ipfs:')) o[k] = t[k]`: keep a field value only
when it starts with the `ipfs:` scheme token. -/
def keepIpfs : Option String → Option String
  | none => none
  | some v => if strStartsWith "ipfs:" v then some v else none

/-- Build one manifest entry from a raw token record. -/
def mkEntry (t : Token) : IndexEntry where
  name := t.name
  type := t.faName
  artifact_uri := keepIpfs t.artifact_uri
  display_uri := keepIpfs t.display_uri
  thumbnail_uri := keepIpfs t.thumbnail_uri
  metadata := keepIpfs t.metadata

/-- The manifest-building loop of `getTokenData`: one entry per record, in
input order, never merged or dropped. -/
def buildIndex (ts : List Token) : List IndexEntry := ts.map mkEntry

/-- The per-filter selection loop of `getTokenData`: for each address, query
its tokens; an empty result yields a console warning for that address and
nothing is appended, otherwise all its tokens are appended.  Returns the
warned addresses and the selected tokens, both in input order. -/
def selectAddrs (tokensOf : String → List Token) : List String → List String × List Token
  | [] => ([], [])
  | a :: rest =>
    let r := selectAddrs tokensOf rest
    if tokensOf a = [] then (a :: r.1, r.2) else (r.1, tokensOf a ++ r.2)

/-- `getTokenData(creators, holders)`: run the creator filters then the
holder filters; if the aggregate selection is empty the script prints
`Error: no token selected.` and exits 1 (modeled as `none`), otherwise it
builds the manifest.  The first component is the list of warned (zero-match)
filter addresses. -/
def getTokenData (ct ht : String → List Token)
    (creators holders : Option (List String)) :
    List String × Option (List IndexEntry) :=
  let rc := selectAddrs ct (creators.getD [])
  let rh := selectAddrs ht (holders.getD [])
  let tokens := rc.2 ++ rh.2
  (rc.1 ++ rh.1, if tokens = [] then none else some (buildIndex tokens))

/-- Outcome recorded (as a console line) for each unique address processed
by the backup loop: `(skipping)` for an already-present object, a plain
address line for a successful `ipget`, a logged exception for a failed one. -/
inductive BackupOutcome where
  | fetched
  | skipped
  | failed
deriving DecidableEq

/-- Observable side effects of a backup run, in order: the single
`index.yaml` write and each `ipget` invocation. -/
inductive BackupEvent where
  | writeManifest (index : List IndexEntry)
  | fetch (hash : String)
deriving DecidableEq

/-- Run-scoped state of `localBackup`: the `hashes` seen-set (insertion
order), the files present in the backup directory, the event trace and the
per-unique-address outcome report. -/
structure BackupState where
  hashes : List String
  storage : List String
  events : List BackupEvent
  report : List (String × BackupOutcome)
deriving DecidableEq

/-- Result of one top-level operation: the tool check failed (`process.exit`
before any work), an unhandled exception aborted the run mid-way, an
exception was caught and reported with `process.exit(1)`, or the run
completed. -/
inductive RunOutcome (σ : Type) where
  | toolMissing
  | uncaught (st : σ)
  | caughtFatal (st : σ)
  | finished (st : σ)
deriving DecidableEq

/-- The state carried by a run that performed work (any outcome except the
pre-work tool-check exit). -/
def RunOutcome.state {σ : Type} : RunOutcome σ → Option σ
  | .toolMissing => none
  | .uncaught st => some st
  | .caughtFatal st => some st
  | .finished st => some st

/-- Sequential processing of the per-reference loop bodies, stopping at the
first thrown exception (`Except.error` carries the state at the throw). -/
def runRefs {σ α : Type} (f : σ → α → Except σ σ) : σ → List α → Except σ σ
  | st, [] => .ok st
  | st, a :: as =>
    match f st a with
    | .error st2 => .error st2
    | .ok st2 => runRefs f st2 as

/-- The state reached by a loop whether or not it threw. -/
def stateOfExcept {σ : Type} : Except σ σ → σ
  | .ok st => st
  | .error st => st

/-- Common shape of the loop bodies of `localBackup` and `cidList`:
`const url = new URL(o[k]); const hash = url.host;` followed by a pure step.
A parse failure is an exception thrown with the state unchanged. -/
def refStep {σ : Type} (u : String → Option String) (g : σ → String → σ)
    (st : σ) (v : String) : Except σ σ :=
  match u v with
  | none => .error st
  | some hash => .ok (g st hash)

/-- The body of the backup loop after address extraction: consult the
seen-set, then the filesystem, then invoke `ipget` (which on success places
the object in storage under its address, and on failure is logged). -/
def backupStep (f : String → Bool) (st : BackupState) (hash : String) : BackupState :=
  if hash ∈ st.hashes then st
  else if hash ∈ st.storage then
    { st with hashes := st.hashes ++ [hash],
              report := st.report ++ [(hash, .skipped)] }
  else if f hash then
    { st with hashes := st.hashes ++ [hash],
              storage := st.storage ++ [hash],
              events := st.events ++ [.fetch hash],
              report := st.report ++ [(hash, .fetched)] }
  else
    { st with hashes := st.hashes ++ [hash],
              events := st.events ++ [.fetch hash],
              report := st.report ++ [(hash, .failed)] }

/-- The URI values referenced by one manifest entry, in field order. -/
def entryRefs (o : IndexEntry) : List String := fieldKeys.filterMap o.get

/-- All referenced URI values of a manifest, in processing order
(entries in order, fields in the fixed key order). -/
def indexRefs (index : List IndexEntry) : List String := index.flatMap entryRefs

/-- Parse every reference with the URL-host oracle; `none` when some
reference makes `new URL` throw. -/
def parseAll (u : String → Option String) : List String → Option (List String)
  | [] => some []
  | v :: vs =>
    match u v with
    | none => none
    | some a =>
      match parseAll u vs with
      | none => none
      | some as => some (a :: as)

/-- The sequence of content addresses referenced by a manifest, in
processing order with multiplicity. -/
def refAddresses (u : String → Option String) (index : List IndexEntry) :
    Option (List String) :=
  parseAll u (indexRefs index)

/-- `localBackup(index, dirname)`: check `command -v ipget` first
(`process.exit(1)` when absent); then create/enter the backup directory,
write `index.yaml`, and stream every reference through `backupStep`.
`new URL` failures are not caught here, so they abort the run. -/
def localBackup (u : String → Option String) (f : String → Bool) (ipget : Bool)
    (index : List IndexEntry) (s0 : List String) : RunOutcome BackupState :=
  if ipget then
    match runRefs (refStep u (backupStep f))
        ⟨[], s0, [.writeManifest index], []⟩ (indexRefs index) with
    | .ok st => .finished st
    | .error st => .uncaught st
  else .toolMissing

/-- `main` for the backup path: discovery (`getTokenData`) runs first and
queries every creator and holder filter address over the network; only then
is `localBackup` invoked.  Returns the queried addresses together with the
result (`none` when `getTokenData` exited on an empty selection). -/
def mainLocalBackup (ct ht : String → List Token) (u : String → Option String)
    (f : String → Bool) (ipget : Bool) (creators holders : Option (List String))
    (s0 : List String) : List String × Option (RunOutcome BackupState) :=
  let queried := creators.getD [] ++ holders.getD []
  match (getTokenData ct ht creators holders).2 with
  | none => (queried, none)
  | some index => (queried, some (localBackup u f ipget index s0))

/-- JavaScript regex whitespace class `\s` restricted to its ASCII members
(the lines produced by `ipfs add` hold none of the exotic Unicode spaces). -/
def wsChar (c : Char) : Bool :=
  c = ' ' ∨ c = '\t' ∨ c = '\n' ∨ c = '\r' ∨ c = '\x0b' ∨ c = '\x0c'

/-- Strip a literal char-list from the front of a line, returning the rest. -/
def dropPref : List Char → List Char → Option (List Char)
  | [], l => some l
  | _ :: _, [] => none
  | p :: ps, c :: cs => if p = c then dropPref ps cs else none

/-- The literal `added ` opening of an `ipfs add` output line. -/
def addedPref : List Char := ['a', 'd', 'd', 'e', 'd', ' ']

/-- `line.match(/^added (\S+) (\S+)$/)`: the line is exactly `added `, a
nonempty run of non-whitespace (the recomputed address), one space, and a
nonempty run of non-whitespace (the reported file name). -/
def parseAdded (l : List Char) : Option (List Char × List Char) :=
  match dropPref addedPref l with
  | none => none
  | some rest =>
    let x := rest.takeWhile fun c => ¬ wsChar c
    match rest.drop x.length with
    | ' ' :: y =>
      if x ≠ [] ∧ y ≠ [] ∧ y.all (fun c => ¬ wsChar c) then some (x, y) else none
    | _ => none

/-- JavaScript `String.prototype.split('\n')` (always at least one piece,
a trailing newline yields a trailing empty piece). -/
def splitLines : List Char → List (List Char)
  | [] => [[]]
  | c :: rest =>
    if c = '\n' then [] :: splitLines rest
    else
      match splitLines rest with
      | [] => [[c]]
      | l :: ls => (c :: l) :: ls

/-- The status computed by `checkLocalBackup` for a stored object: start at
`true`, and set `false` for any output line of
`ipfs add -r --progress=false --only-hash <dir>/<hash>` matching
`^added (\S+) (\S+)$` whose first group equals the declared address while
its second group differs from the first.  (`addOut` is the raw stdout of
the hashing tool for the object stored under the given address.) -/
def hashStatus (addOut : String → String) (h : String) : Bool :=
  ¬ (splitLines (addOut h).data).any fun line =>
      match parseAdded line with
      | some (x, y) => x = h.data ∧ y ≠ x
      | none => false

/-- One console line `  ✅/❌ k: hash` of the verification report, keyed by
the entry name and field role that referenced the address. -/
structure CheckLine where
  name : String
  key : FieldKey
  hash : String
  status : Bool
deriving DecidableEq

/-- Run-scoped state of `checkLocalBackup`: the `statuses` memo map in
insertion order, the addresses for which the hashing tool was invoked, and
the per-reference report lines. -/
structure CheckState where
  statuses : List (String × Bool)
  events : List String
  report : List CheckLine
deriving DecidableEq

/-- `hash in statuses` / `statuses[hash]` on the memo map. -/
def findStatus (h : String) : List (String × Bool) → Option Bool
  | [] => none
  | p :: ps => if p.1 = h then some p.2 else findStatus h ps

/-- The body of the verification loop for one `(entry, field-role)`
reference: parse the URI (a failure throws, caught by the surrounding
`try`), consult the memo map, otherwise check existence and, when the
object is present, invoke the hashing tool (`execSync('ipfs add ...')`
throws when the `ipfs` binary is absent, also caught by the `try`). -/
def checkRef (u : String → Option String) (stored : String → Bool)
    (addOut : String → String) (ipfs : Bool) (st : CheckState)
    (r : String × FieldKey × String) : Except CheckState CheckState :=
  match u r.2.2 with
  | none => .error st
  | some hash =>
    match findStatus hash st.statuses with
    | some s => .ok { st with report := st.report ++ [⟨r.1, r.2.1, hash, s⟩] }
    | none =>
      if stored hash then
        if ipfs then
          let s := hashStatus addOut hash
          .ok { st with statuses := st.statuses ++ [(hash, s)],
                        events := st.events ++ [hash],
                        report := st.report ++ [⟨r.1, r.2.1, hash, s⟩] }
        else .error st
      else .ok { st with statuses := st.statuses ++ [(hash, false)],
                         report := st.report ++ [⟨r.1, r.2.1, hash, false⟩] }

/-- All `(entry name, field role, URI value)` references of a manifest, in
processing order. -/
def refTriples (index : List IndexEntry) : List (String × FieldKey × String) :=
  index.flatMap fun o => fieldKeys.filterMap fun k => (o.get k).map fun v => (o.name, k, v)

/-- `checkLocalBackup(dirname)`: the script checks `command -v ipget`
(although its error message names `ipfs`) and exits when absent; the whole
verification loop then runs inside one `try`, so any exception is reported
with `console.error` and `process.exit(1)`. -/
def checkLocalBackup (u : String → Option String) (stored : String → Bool)
    (addOut : String → String) (ipget ipfs : Bool) (index : List IndexEntry) :
    RunOutcome CheckState :=
  if ipget then
    match runRefs (checkRef u stored addOut ipfs) ⟨[], [], []⟩ (refTriples index) with
    | .ok st => .finished st
    | .error st => .caughtFatal st
  else .toolMissing

/-- Run-scoped state of `cidList`: the seen-set and the accumulated
newline-delimited text. -/
structure CidState where
  hashes : List String
  text : String
deriving DecidableEq

/-- The body of the CID-list loop after address extraction: append
`hash + '\n'` for each first-seen address. -/
def cidStep (st : CidState) (hash : String) : CidState :=
  if hash ∈ st.hashes then st
  else ⟨st.hashes ++ [hash], st.text ++ hash ++ "\n"⟩

/-- `cidList(index, filename)`: no tool check, no `try`, stream every
reference; the final text is written to the list file. -/
def cidList (u : String → Option String) (index : List IndexEntry) :
    RunOutcome CidState :=
  match runRefs (refStep u cidStep) ⟨[], ""⟩ (indexRefs index) with
  | .ok st => .finished st
  | .error st => .uncaught st

/-- The per-unique-address backup outcome determined independently of all
other addresses: already present in the initial storage, else fetched when
`ipget` succeeds, else failed. -/
def backupOutcome0 (f : String → Bool) (s0 : List String) (a : String) :
    BackupOutcome :=
  if a ∈ s0 then .skipped else if f a then .fetched else .failed

/-- The verification status of a unique address determined independently of
all other addresses: `false` when no object is stored under it, otherwise
the status computed from the hashing tool's output. -/
def checkOutcome0 (stored : String → Bool) (addOut : String → String)
    (a : String) : Bool :=
  if stored a then hashStatus addOut a else false

/-- The new addresses a run adds to a given seen-set, in first-seen order. -/
def newAddrs (seen : List String) : List String → List String
  | [] => []
  | a :: as => if a ∈ seen then newAddrs seen as else a :: newAddrs (seen ++ [a]) as

/-- The distinct members of a list, each kept at its first occurrence, in
first-seen order. -/
def firstSeen : List String → List String
  | [] => []
  | a :: as => a :: firstSeen (as.filter fun b => decide (¬ b = a))
termination_by l => l.length
decreasing_by
  simp_wf
  exact Nat.lt_succ_of_le (List.length_filter_le _ _)

/-- Newline-delimited text: one line per list member, each followed by a
newline. -/
def linesText : List String → String
  | [] => ""
  | a :: as => a ++ "\n" ++ linesText as

/-- Escape one character for a single-line document value: backslash,
newline and carriage return are written as two-character escapes, every
other character stands for itself. -/
def escChar (c : Char) : List Char :=
  if c = '\\' then ['\\', '\\']
  else if c = '\n' then ['\\', 'n']
  else if c = '\r' then ['\\', 'r']
  else [c]

/-- Escape a value so it fits on one document line. -/
def esc (s : List Char) : List Char := s.flatMap escChar

/-- Inverse of `esc`: decode two-character escapes, pass everything else
through. -/
def unesc : List Char → List Char
  | [] => []
  | [c] => [c]
  | c1 :: c2 :: rest =>
    if c1 = '\\' then
      (if c2 = 'n' then '\n' else if c2 = 'r' then '\r' else c2) :: unesc rest
    else c1 :: unesc (c2 :: rest)

/-- Line openers of the serialized manifest document: a list of entries,
each entry a `- name:` line, a `  type:` line, and one indented line per
present field role, in the fixed field order. -/
def pN : List Char := ['-', ' ', 'n', 'a', 'm', 'e', ':', ' ']

def pT : List Char := [' ', ' ', 't', 'y', 'p', 'e', ':', ' ']

def pA : List Char :=
  [' ', ' ', 'a', 'r', 't', 'i', 'f', 'a', 'c', 't', '_', 'u', 'r', 'i', ':', ' ']

def pD : List Char :=
  [' ', ' ', 'd', 'i', 's', 'p', 'l', 'a', 'y', '_', 'u', 'r', 'i', ':', ' ']

def pTh : List Char :=
  [' ', ' ', 't', 'h', 'u', 'm', 'b', 'n', 'a', 'i', 'l', '_', 'u', 'r', 'i', ':', ' ']

def pM : List Char :=
  [' ', ' ', 'm', 'e', 't', 'a', 'd', 'a', 't', 'a', ':', ' ']

/-- The line for an optional field: present fields produce one line, absent
fields none. -/
def optLine (p : List Char) : Option String → List (List Char)
  | none => []
  | some s => [p ++ esc s.data]

/-- Modelled from the spec: the manifest entry serialization of the
persistence layer (`yaml.dump` in the script is an external library; the
spec fixes the document to an ordered list of entries, each with name,
category, and the present field-role to URI mappings).  One line per
datum, values escaped onto a single line. -/
def entryLines (o : IndexEntry) : List (List Char) :=
  (pN ++ esc o.name.data) :: (pT ++ esc o.type.data) ::
    (optLine pA o.artifact_uri ++ optLine pD o.display_uri ++
     optLine pTh o.thumbnail_uri ++ optLine pM o.metadata)

/-- All lines of the serialized document, in entry order. -/
def docLines (es : List IndexEntry) : List (List Char) := es.flatMap entryLines

/-- Join document lines, terminating every line with a newline. -/
def joinLines : List (List Char) → List Char
  | [] => []
  | l :: ls => l ++ '\n' :: joinLines ls

/-- Modelled from the spec: `save` of the manifest persistence layer
(`fs.writeFileSync('index.yaml', yaml.dump(index))` in the script, with
`yaml.dump` external). -/
def dumpIndex (es : List IndexEntry) : String :=
  String.mk (joinLines (docLines es))

/-- Consume the next line when it starts with the given opener, returning
its value and the remaining lines; otherwise leave the lines untouched. -/
def tryField (p : List Char) : List (List Char) → Option (List Char) × List (List Char)
  | [] => (none, [])
  | l :: ls =>
    match dropPref p l with
    | some v => (some v, ls)
    | none => (none, l :: ls)

/-- Decode an escaped line value back into a string. -/
def strOf (l : List Char) : String := String.mk (unesc l)

/-- Modelled from the spec: the parser half of the persistence layer.  The
document must be a sequence of entries (`- name:` line, `  type:` line,
then the present field lines in order) followed by the final empty piece
the terminating newline produces. -/
def parseEntries : List (List Char) → Option (List IndexEntry)
  | [] => none
  | l1 :: rest =>
    match dropPref pN l1 with
    | none => if l1 = [] ∧ rest = [] then some [] else none
    | some nm =>
      match rest with
      | [] => none
      | l2 :: ls =>
        match dropPref pT l2 with
        | none => none
        | some ty =>
          let r1 := tryField pA ls
          let r2 := tryField pD r1.2
          let r3 := tryField pTh r2.2
          let r4 := tryField pM r3.2
          match parseEntries r4.2 with
          | none => none
          | some es =>
            some ({ name := strOf nm, type := strOf ty,
                    artifact_uri := r1.1.map strOf,
                    display_uri := r2.1.map strOf,
                    thumbnail_uri := r3.1.map strOf,
                    metadata := r4.1.map strOf } :: es)
termination_by ls => ls.length
decreasing_by
  have hlen : ∀ (p : List Char) (xs : List (List Char)),
      (tryField p xs).2.length ≤ xs.length := by
    intro p xs
    cases xs with
    | nil => simp [tryField]
    | cons x t =>
      simp only [tryField]
      cases dropPref p x <;> simp
  have h1 := hlen pA ls
  have h2 := hlen pD (tryField pA ls).2
  have h3 := hlen pTh (tryField pD (tryField pA ls).2).2
  have h4 := hlen pM (tryField pTh (tryField pD (tryField pA ls).2).2).2
  simp_wf
  omega

/-- Modelled from the spec: `load` of the manifest persistence layer
(`yaml.load(fs.readFileSync(...))` in the script, with `yaml.load`
external), the exact inverse of `dumpIndex`. -/
def loadIndex (s : String) : Option (List IndexEntry) :=
  parseEntries (splitLines s.data)

/-- Sample manifest: one entry whose artifact and display roles reference
the same content address, used in concrete evaluations. -/
def sampleDup : List IndexEntry :=
  [⟨"e1", "T", some "ipfs://QmA", some "ipfs://QmA", none, none⟩]

/-- Sample manifest: three entries referencing the distinct addresses
`QmA`, `QmB`, `QmC`, used in concrete evaluations. -/
def sampleABC : List IndexEntry :=
  [⟨"e1", "T", some "ipfs://QmA", none, none, none⟩,
   ⟨"e2", "T", some "ipfs://QmB", none, none, none⟩,
   ⟨"e3", "T", some "ipfs://QmC", none, none, none⟩]

/-- Sample manifest: one entry whose four roles reference the address
sequence `[QmA, QmB, QmA, QmC]`, used in concrete evaluations. -/
def sampleABAC : List IndexEntry :=
  [⟨"e1", "T", some "ipfs://QmA", some "ipfs://QmB", some "ipfs://QmA/x",
    some "ipfs://QmC"⟩]

theorem runRefs_refStep_of_parseAll {σ : Type} (u : String → Option String)
    (g : σ → String → σ) :
    ∀ (vs as : List String), parseAll u vs = some as →
      ∀ st : σ, runRefs (refStep u g) st vs = .ok (as.foldl g st) := by
  intro vs
  induction vs with
  | nil =>
    intro as h st
    simp only [parseAll, Option.some.injEq] at h
    subst h
    simp [runRefs]
  | cons v vs ih =>
    intro as h st
    simp only [parseAll] at h
    cases hu : u v with
    | none => simp [hu] at h
    | some a =>
      rw [hu] at h
      cases hp : parseAll u vs with
      | none => simp [hp] at h
      | some as2 =>
        rw [hp] at h
        simp only [Option.some.injEq] at h
        subst h
        simp only [runRefs, refStep, hu, List.foldl_cons]
        exact ih as2 hp (g st a)

theorem runRefs_refStep_ok {σ : Type} (u : String → Option String)
    (g : σ → String → σ) :
    ∀ (vs : List String) (st st2 : σ), runRefs (refStep u g) st vs = .ok st2 →
      ∃ as, parseAll u vs = some as ∧ st2 = as.foldl g st := by
  intro vs
  induction vs with
  | nil =>
    intro st st2 h
    simp only [runRefs, Except.ok.injEq] at h
    exact ⟨[], rfl, h.symm⟩
  | cons v vs ih =>
    intro st st2 h
    simp only [runRefs, refStep] at h
    cases hu : u v with
    | none => rw [hu] at h; simp at h
    | some a =>
      rw [hu] at h
      obtain ⟨as, hp, hst⟩ := ih (g st a) st2 h
      exact ⟨a :: as, by simp [parseAll, hu, hp], by simp [hst]⟩

theorem runRefs_state_inv {σ α : Type} (f : σ → α → Except σ σ) (P : σ → Prop)
    (hf : ∀ s a, P s → P (stateOfExcept (f s a))) :
    ∀ (l : List α) (st : σ), P st → P (stateOfExcept (runRefs f st l)) := by
  intro l
  induction l with
  | nil => intro st h; simpa [runRefs, stateOfExcept] using h
  | cons a l ih =>
    intro st h
    simp only [runRefs]
    cases hfa : f st a with
    | error st2 =>
      have h2 := hf st a h
      rw [hfa] at h2
      simpa [stateOfExcept] using h2
    | ok st2 =>
      have h2 := hf st a h
      rw [hfa] at h2
      simp only [stateOfExcept] at h2
      exact ih st2 h2

theorem nodup_concat {α : Type} (a : α) (l : List α) (hl : l.Nodup) (ha : a ∉ l) :
    (l ++ [a]).Nodup := by
  rw [List.nodup_append]
  refine ⟨hl, List.nodup_singleton a, ?_⟩
  intro x hx hxa
  rw [List.mem_singleton] at hxa
  subst hxa
  exact ha hx

theorem mem_append_newAddrs (a : String) :
    ∀ (l seen : List String), a ∈ seen ++ newAddrs seen l ↔ a ∈ seen ∨ a ∈ l := by
  intro l
  induction l with
  | nil => intro seen; simp [newAddrs]
  | cons b l ih =>
    intro seen
    simp only [newAddrs]
    by_cases hb : b ∈ seen
    · rw [if_pos hb, ih seen]
      simp only [List.mem_cons]
      constructor
      · rintro (h | h)
        · exact Or.inl h
        · exact Or.inr (Or.inr h)
      · rintro (h | rfl | h)
        · exact Or.inl h
        · exact Or.inl hb
        · exact Or.inr h
    · rw [if_neg hb]
      rw [show seen ++ b :: newAddrs (seen ++ [b]) l
            = (seen ++ [b]) ++ newAddrs (seen ++ [b]) l by simp]
      rw [ih (seen ++ [b])]
      simp only [List.mem_append, List.mem_singleton, List.mem_cons]
      tauto

theorem backupStep_hashes (f : String → Bool) (st : BackupState) (a : String) :
    (backupStep f st a).hashes
      = if a ∈ st.hashes then st.hashes else st.hashes ++ [a] := by
  by_cases h : a ∈ st.hashes
  · simp [backupStep, h]
  · simp only [backupStep, if_neg h]
    split
    · rfl
    · split <;> rfl

theorem foldl_backupStep_hashes (f : String → Bool) :
    ∀ (as : List String) (st : BackupState),
      (as.foldl (backupStep f) st).hashes = st.hashes ++ newAddrs st.hashes as := by
  intro as
  induction as with
  | nil => intro st; simp [newAddrs]
  | cons a as ih =>
    intro st
    rw [List.foldl_cons, ih (backupStep f st a)]
    simp only [newAddrs]
    by_cases h : a ∈ st.hashes
    · have hkeep : backupStep f st a = st := by simp [backupStep, h]
      rw [hkeep, if_pos h]
    · rw [if_neg h, backupStep_hashes, if_neg h]
      simp

/-- The run-scoped invariant of the backup loop: the seen-set has no
duplicates; storage is the initial storage plus the successfully fetched
new objects; the report records, per seen address in first-seen order, the
outcome determined by the initial storage and the fetch oracle; the trace
is the manifest write followed by one `ipget` invocation per seen address
that was not initially present. -/
def BInv (index : List IndexEntry) (f : String → Bool) (s0 : List String)
    (st : BackupState) : Prop :=
  st.hashes.Nodup ∧
  st.storage = s0 ++ st.hashes.filter (fun a => decide (¬ a ∈ s0) && f a) ∧
  st.report = st.hashes.map (fun a => (a, backupOutcome0 f s0 a)) ∧
  st.events = BackupEvent.writeManifest index ::
    (st.hashes.filter fun a => decide (¬ a ∈ s0)).map BackupEvent.fetch

theorem BInv_init (index : List IndexEntry) (f : String → Bool) (s0 : List String) :
    BInv index f s0 ⟨[], s0, [BackupEvent.writeManifest index], []⟩ := by
  refine ⟨List.nodup_nil, by simp, rfl, by simp⟩

theorem backupStep_BInv (index : List IndexEntry) (f : String → Bool)
    (s0 : List String) (st : BackupState) (a : String) (h : BInv index f s0 st) :
    BInv index f s0 (backupStep f st a) := by
  obtain ⟨h1, h2, h3, h4⟩ := h
  by_cases hmem : a ∈ st.hashes
  · simpa [backupStep, hmem] using ⟨h1, h2, h3, h4⟩
  · by_cases hsto : a ∈ st.storage
    · have hs0 : a ∈ s0 := by
        rw [h2, List.mem_append] at hsto
        rcases hsto with h' | h'
        · exact h'
        · exact absurd (List.mem_of_mem_filter h') hmem
      refine ⟨?_, ?_, ?_, ?_⟩ <;>
        simp only [backupStep, if_neg hmem, if_pos hsto]
      · exact nodup_concat a st.hashes h1 hmem
      · rw [h2, List.filter_append]
        simp [hs0]
      · rw [h3, List.map_append]
        simp [backupOutcome0, hs0]
      · rw [h4, List.filter_append]
        simp [hs0]
    · have hs0 : ¬ a ∈ s0 := fun h' => hsto (by rw [h2, List.mem_append]; exact Or.inl h')
      by_cases hf : f a
      · refine ⟨?_, ?_, ?_, ?_⟩ <;>
          simp only [backupStep, if_neg hmem, if_neg hsto, if_pos hf]
        · exact nodup_concat a st.hashes h1 hmem
        · rw [h2, List.filter_append]
          simp [hs0, hf]
        · rw [h3, List.map_append]
          simp [backupOutcome0, hs0, hf]
        · rw [h4, List.filter_append]
          simp [hs0]
      · refine ⟨?_, ?_, ?_, ?_⟩ <;>
          simp only [backupStep, if_neg hmem, if_neg hsto, if_neg hf]
        · exact nodup_concat a st.hashes h1 hmem
        · rw [h2, List.filter_append]
          simp [hs0, hf]
        · rw [h3, List.map_append]
          simp [backupOutcome0, hs0, hf]
        · rw [h4, List.filter_append]
          simp [hs0]

theorem localBackup_state_BInv (u : String → Option String) (f : String → Bool)
    (index : List IndexEntry) (s0 : List String) (st : BackupState)
    (h : (localBackup u f true index s0).state = some st) :
    BInv index f s0 st := by
  have hstep : ∀ (s : BackupState) (v : String), BInv index f s0 s →
      BInv index f s0 (stateOfExcept (refStep u (backupStep f) s v)) := by
    intro s v hs
    unfold refStep
    cases u v with
    | none => simpa [stateOfExcept] using hs
    | some a => simpa [stateOfExcept] using backupStep_BInv index f s0 s a hs
  have hinv := runRefs_state_inv (refStep u (backupStep f)) (BInv index f s0) hstep
    (indexRefs index) ⟨[], s0, [BackupEvent.writeManifest index], []⟩
    (BInv_init index f s0)
  unfold localBackup at h
  simp only [if_true] at h
  cases hr : runRefs (refStep u (backupStep f))
      ⟨[], s0, [BackupEvent.writeManifest index], []⟩ (indexRefs index) with
  | ok st2 =>
    rw [hr] at h hinv
    simp only [RunOutcome.state, Option.some.injEq] at h
    subst h
    simpa [stateOfExcept] using hinv
  | error st2 =>
    rw [hr] at h hinv
    simp only [RunOutcome.state, Option.some.injEq] at h
    subst h
    simpa [stateOfExcept] using hinv

theorem localBackup_finished_of_parseAll (u : String → Option String)
    (f : String → Bool) (index : List IndexEntry) (s0 : List String)
    (addrs : List String) (h : refAddresses u index = some addrs) :
    localBackup u f true index s0 =
      .finished (addrs.foldl (backupStep f)
        ⟨[], s0, [BackupEvent.writeManifest index], []⟩) := by
  unfold localBackup
  rw [runRefs_refStep_of_parseAll u (backupStep f) _ _ h]
  simp

theorem localBackup_finished_elim (u : String → Option String) (f : String → Bool)
    (index : List IndexEntry) (s0 : List String) (st : BackupState)
    (h : localBackup u f true index s0 = .finished st) :
    ∃ addrs, refAddresses u index = some addrs ∧
      st = addrs.foldl (backupStep f)
        ⟨[], s0, [BackupEvent.writeManifest index], []⟩ := by
  unfold localBackup at h
  simp only [if_true] at h
  cases hr : runRefs (refStep u (backupStep f))
      ⟨[], s0, [BackupEvent.writeManifest index], []⟩ (indexRefs index) with
  | ok st2 =>
    rw [hr] at h
    simp only [RunOutcome.finished.injEq] at h
    subst h
    obtain ⟨as, hp, hfold⟩ := runRefs_refStep_ok u (backupStep f) _ _ _ hr
    exact ⟨as, hp, hfold⟩
  | error st2 =>
    rw [hr] at h
    simp at h

theorem str_append_empty (s : String) : s ++ "" = s := by
  apply String.ext
  simp [String.data_append]

theorem str_empty_append (s : String) : "" ++ s = s := by
  apply String.ext
  simp [String.data_append]

theorem str_append_assoc (a b c : String) : a ++ b ++ c = a ++ (b ++ c) := by
  apply String.ext
  simp [String.data_append]

theorem mem_firstSeen (l : List String) : ∀ a, a ∈ firstSeen l ↔ a ∈ l := by
  induction l using firstSeen.induct with
  | case1 => simp [firstSeen]
  | case2 b l ih =>
    intro a
    rw [firstSeen]
    simp only [List.mem_cons]
    by_cases hab : a = b
    · simp [hab]
    · simp only [hab, false_or]
      rw [ih a, List.mem_filter]
      simp [hab]

theorem nodup_firstSeen (l : List String) : (firstSeen l).Nodup := by
  induction l using firstSeen.induct with
  | case1 => simp [firstSeen]
  | case2 b l ih =>
    rw [firstSeen, List.nodup_cons]
    refine ⟨?_, ih⟩
    intro hb
    rw [mem_firstSeen, List.mem_filter] at hb
    simp at hb

theorem newAddrs_eq_firstSeen :
    ∀ (l seen : List String),
      newAddrs seen l = firstSeen (l.filter fun b => decide (¬ b ∈ seen)) := by
  intro l
  induction l with
  | nil => intro seen; simp [newAddrs, firstSeen]
  | cons a l ih =>
    intro seen
    simp only [newAddrs, List.filter_cons]
    by_cases ha : a ∈ seen
    · have hd : (decide (¬ a ∈ seen)) = false := by simp [ha]
      simp only [hd, Bool.false_eq_true, if_false, if_pos ha]
      exact ih seen
    · have hd : (decide (¬ a ∈ seen)) = true := by simp [ha]
      simp only [hd, if_true, if_neg ha]
      rw [firstSeen, List.filter_filter]
      rw [ih (seen ++ [a])]
      refine congrArg (fun t => a :: firstSeen t) ?_
      apply List.filter_congr
      intro b _
      by_cases hb1 : b = a <;> by_cases hb2 : b ∈ seen <;>
        simp [hb1, hb2, List.mem_append]

theorem foldl_cidStep (as : List String) : ∀ st : CidState,
    as.foldl cidStep st = ⟨st.hashes ++ newAddrs st.hashes as,
                           st.text ++ linesText (newAddrs st.hashes as)⟩ := by
  induction as with
  | nil =>
    intro st
    simp [newAddrs, linesText, str_append_empty]
  | cons a as ih =>
    intro st
    rw [List.foldl_cons]
    by_cases h : a ∈ st.hashes
    · have hkeep : cidStep st a = st := by simp [cidStep, h]
      rw [hkeep, ih st]
      simp [newAddrs, h]
    · have hstep : cidStep st a = ⟨st.hashes ++ [a], st.text ++ a ++ "\n"⟩ := by
        simp [cidStep, h]
      rw [hstep, ih]
      simp only [newAddrs, if_neg h, linesText]
      refine congrArg₂ CidState.mk ?_ ?_
      · simp
      · simp [str_append_assoc]

theorem cidList_finished_of_parseAll (u : String → Option String)
    (index : List IndexEntry) (addrs : List String)
    (h : refAddresses u index = some addrs) :
    cidList u index = .finished ⟨firstSeen addrs, linesText (firstSeen addrs)⟩ := by
  unfold cidList
  rw [runRefs_refStep_of_parseAll u cidStep _ _ h, foldl_cidStep]
  have hfil : addrs.filter (fun b => decide (¬ b ∈ ([] : List String))) = addrs :=
    List.filter_eq_self.mpr (by intro b _; simp)
  rw [show (⟨[], ""⟩ : CidState).hashes = [] from rfl,
      show (⟨[], ""⟩ : CidState).text = "" from rfl,
      newAddrs_eq_firstSeen, hfil]
  simp [str_empty_append]

theorem countP_le_one_of_nodup {α : Type} [DecidableEq α] :
    ∀ (l : List α), l.Nodup → ∀ x, l.countP (fun e => decide (e = x)) ≤ 1 := by
  intro l
  induction l with
  | nil => intro _ x; simp
  | cons a l ih =>
    intro h x
    rw [List.nodup_cons] at h
    rw [List.countP_cons]
    by_cases hax : a = x
    · have hz : l.countP (fun e => decide (e = x)) = 0 := by
        rw [List.countP_eq_zero]
        intro b hb
        simp only [decide_eq_true_eq]
        intro hbx
        subst hbx
        subst hax
        exact h.1 hb
      simp [hz, hax]
    · have hle := ih h.2 x
      have hd : (decide (a = x)) = false := by simp [hax]
      rw [hd]
      simpa using hle

theorem findStatus_none (h : String) :
    ∀ l : List (String × Bool), findStatus h l = none ↔ ¬ h ∈ l.map Prod.fst := by
  intro l
  induction l with
  | nil => simp [findStatus]
  | cons p ps ih =>
    simp only [findStatus, List.map_cons, List.mem_cons]
    by_cases hp : p.1 = h
    · simp [hp]
    · rw [if_neg hp, ih]
      have : ¬ h = p.1 := fun hc => hp hc.symm
      simp [this]

theorem findStatus_some_mem (h : String) (s : Bool) :
    ∀ l : List (String × Bool), findStatus h l = some s → (h, s) ∈ l := by
  intro l
  induction l with
  | nil => simp [findStatus]
  | cons p ps ih =>
    intro hf
    simp only [findStatus] at hf
    by_cases hp : p.1 = h
    · rw [if_pos hp] at hf
      simp only [Option.some.injEq] at hf
      obtain ⟨p1, p2⟩ := p
      simp only at hp hf
      subst hp
      subst hf
      exact List.mem_cons_self _ _
    · rw [if_neg hp] at hf
      exact List.mem_cons_of_mem _ (ih hf)

/-- The run-scoped invariant of the verification loop: the memo map has
distinct keys and holds, per address, the status determined independently
by storage and the hashing tool's output; the hashing tool was invoked
exactly for the stored memoized addresses; every report line carries the
memoized status of its address. -/
def CInv (stored : String → Bool) (addOut : String → String)
    (st : CheckState) : Prop :=
  (st.statuses.map Prod.fst).Nodup ∧
  (∀ p ∈ st.statuses, p.2 = checkOutcome0 stored addOut p.1) ∧
  st.events = (st.statuses.map Prod.fst).filter stored ∧
  (∀ r ∈ st.report, r.status = checkOutcome0 stored addOut r.hash)

theorem CInv_init (stored : String → Bool) (addOut : String → String) :
    CInv stored addOut ⟨[], [], []⟩ := by
  refine ⟨List.nodup_nil, by simp, by simp, by simp⟩

theorem checkRef_CInv (u : String → Option String) (stored : String → Bool)
    (addOut : String → String) (ipfs : Bool) (st : CheckState)
    (r : String × FieldKey × String) (h : CInv stored addOut st) :
    CInv stored addOut (stateOfExcept (checkRef u stored addOut ipfs st r)) := by
  obtain ⟨h1, h2, h3, h4⟩ := h
  cases hu : u r.2.2 with
  | none =>
    have heq : checkRef u stored addOut ipfs st r = .error st := by
      simp [checkRef, hu]
    rw [heq]
    exact ⟨h1, h2, h3, h4⟩
  | some hash =>
    cases hf : findStatus hash st.statuses with
    | some s =>
      have heq : checkRef u stored addOut ipfs st r
          = .ok { st with report := st.report ++ [⟨r.1, r.2.1, hash, s⟩] } := by
        simp [checkRef, hu, hf]
      rw [heq]
      simp only [stateOfExcept]
      refine ⟨h1, h2, h3, ?_⟩
      intro rl hrl
      simp only [List.mem_append, List.mem_singleton] at hrl
      rcases hrl with hrl | hrl
      · exact h4 rl hrl
      · subst hrl
        exact h2 _ (findStatus_some_mem hash s st.statuses hf)
    | none =>
      have hnot : ¬ hash ∈ st.statuses.map Prod.fst := (findStatus_none hash _).mp hf
      by_cases hsd : stored hash = true
      · by_cases hip : ipfs = true
        · have heq : checkRef u stored addOut ipfs st r
              = .ok { st with
                  statuses := st.statuses ++ [(hash, hashStatus addOut hash)],
                  events := st.events ++ [hash],
                  report := st.report ++
                    [⟨r.1, r.2.1, hash, hashStatus addOut hash⟩] } := by
            simp [checkRef, hu, hf, hsd, hip]
          rw [heq]
          simp only [stateOfExcept]
          have hout : hashStatus addOut hash = checkOutcome0 stored addOut hash := by
            simp [checkOutcome0, hsd]
          refine ⟨?_, ?_, ?_, ?_⟩
          · simp only [List.map_append, List.map_cons, List.map_nil]
            exact nodup_concat hash _ h1 hnot
          · intro p hp
            simp only [List.mem_append, List.mem_singleton] at hp
            rcases hp with hp | hp
            · exact h2 p hp
            · subst hp
              exact hout
          · simp only [List.map_append, List.map_cons, List.map_nil,
              List.filter_append, h3]
            simp [List.filter, hsd]
          · intro rl hrl
            simp only [List.mem_append, List.mem_singleton] at hrl
            rcases hrl with hrl | hrl
            · exact h4 rl hrl
            · subst hrl
              exact hout
        · have heq : checkRef u stored addOut ipfs st r = .error st := by
            simp [checkRef, hu, hf, hsd, hip]
          rw [heq]
          simp only [stateOfExcept]
          exact ⟨h1, h2, h3, h4⟩
      · have heq : checkRef u stored addOut ipfs st r
            = .ok { st with
                statuses := st.statuses ++ [(hash, false)],
                report := st.report ++ [⟨r.1, r.2.1, hash, false⟩] } := by
          simp [checkRef, hu, hf, hsd]
        rw [heq]
        simp only [stateOfExcept]
        have hout : checkOutcome0 stored addOut hash = false := by
          simp [checkOutcome0, hsd]
        refine ⟨?_, ?_, ?_, ?_⟩
        · simp only [List.map_append, List.map_cons, List.map_nil]
          exact nodup_concat hash _ h1 hnot
        · intro p hp
          simp only [List.mem_append, List.mem_singleton] at hp
          rcases hp with hp | hp
          · exact h2 p hp
          · subst hp
            exact hout.symm
        · simp only [List.map_append, List.map_cons, List.map_nil,
            List.filter_append, h3]
          simp [List.filter, hsd]
        · intro rl hrl
          simp only [List.mem_append, List.mem_singleton] at hrl
          rcases hrl with hrl | hrl
          · exact h4 rl hrl
          · subst hrl
            exact hout.symm

theorem checkLocalBackup_state_CInv (u : String → Option String)
    (stored : String → Bool) (addOut : String → String) (ipfs : Bool)
    (index : List IndexEntry) (st : CheckState)
    (h : (checkLocalBackup u stored addOut true ipfs index).state = some st) :
    CInv stored addOut st := by
  have hinv := runRefs_state_inv (checkRef u stored addOut ipfs)
    (CInv stored addOut)
    (fun s r hs => checkRef_CInv u stored addOut ipfs s r hs)
    (refTriples index) ⟨[], [], []⟩ (CInv_init stored addOut)
  unfold checkLocalBackup at h
  simp only [if_true] at h
  cases hr : runRefs (checkRef u stored addOut ipfs) ⟨[], [], []⟩
      (refTriples index) with
  | ok st2 =>
    rw [hr] at h hinv
    simp only [RunOutcome.state, Option.some.injEq] at h
    subst h
    simpa [stateOfExcept] using hinv
  | error st2 =>
    rw [hr] at h hinv
    simp only [RunOutcome.state, Option.some.injEq] at h
    subst h
    simpa [stateOfExcept] using hinv

theorem foldl_backupStep_BInv (index : List IndexEntry) (f : String → Bool)
    (s0 : List String) :
    ∀ (as : List String) (st : BackupState), BInv index f s0 st →
      BInv index f s0 (as.foldl (backupStep f) st) := by
  intro as
  induction as with
  | nil => intro st h; simpa using h
  | cons a as ih =>
    intro st h
    rw [List.foldl_cons]
    exact ih _ (backupStep_BInv index f s0 st a h)

theorem BInv_fetch_count (index : List IndexEntry) (f : String → Bool)
    (s0 : List String) (st : BackupState) (h : BInv index f s0 st) (a : String) :
    st.events.countP (fun e => decide (e = BackupEvent.fetch a)) ≤ 1 := by
  obtain ⟨h1, -, -, h4⟩ := h
  rw [h4, List.countP_cons]
  have hw : (decide (BackupEvent.writeManifest index = BackupEvent.fetch a))
      = false := by
    apply decide_eq_false
    intro hc
    cases hc
  rw [hw]
  simp only [Bool.false_eq_true, if_false, Nat.add_zero]
  rw [List.countP_map]
  have hcomp : ((fun e => decide (e = BackupEvent.fetch a)) ∘ BackupEvent.fetch)
      = fun h => decide (h = a) := by
    funext b
    simp only [Function.comp]
    rw [decide_eq_decide]
    constructor
    · intro hc; injection hc
    · intro hc; rw [hc]
  rw [hcomp]
  exact countP_le_one_of_nodup _ (List.Nodup.filter _ h1) a

theorem escChar_no_nl (c : Char) : ¬ '\n' ∈ escChar c := by
  unfold escChar
  by_cases h1 : c = '\\'
  · simp [h1]
  · by_cases h2 : c = '\n'
    · simp [h1, h2]
    · by_cases h3 : c = '\r'
      · simp [h1, h2, h3]
      · simp only [h1, h2, h3, if_false, List.mem_singleton]
        exact fun hc => h2 hc.symm

theorem esc_no_nl (s : List Char) : ¬ '\n' ∈ esc s := by
  unfold esc
  intro h
  rw [List.mem_flatMap] at h
  obtain ⟨c, -, hc⟩ := h
  exact escChar_no_nl c hc

theorem unesc_cons_ne (c : Char) (h : ¬ c = '\\') (l : List Char) :
    unesc (c :: l) = c :: unesc l := by
  cases l with
  | nil => simp [unesc]
  | cons c2 t => simp [unesc, h]

theorem unesc_esc : ∀ s : List Char, unesc (esc s) = s := by
  intro s
  induction s with
  | nil => rfl
  | cons c s ih =>
    have hc : esc (c :: s) = escChar c ++ esc s := by simp [esc]
    rw [hc]
    by_cases h1 : c = '\\'
    · subst h1
      rw [show escChar '\\' = ['\\', '\\'] by decide]
      simp only [List.cons_append, List.nil_append]
      rw [show unesc ('\\' :: '\\' :: esc s) = '\\' :: unesc (esc s) by
        simp [unesc]]
      rw [ih]
    · by_cases h2 : c = '\n'
      · subst h2
        rw [show escChar '\n' = ['\\', 'n'] by decide]
        simp only [List.cons_append, List.nil_append]
        rw [show unesc ('\\' :: 'n' :: esc s) = '\n' :: unesc (esc s) by
          simp [unesc]]
        rw [ih]
      · by_cases h3 : c = '\r'
        · subst h3
          rw [show escChar '\r' = ['\\', 'r'] by decide]
          simp only [List.cons_append, List.nil_append]
          rw [show unesc ('\\' :: 'r' :: esc s) = '\r' :: unesc (esc s) by
            simp [unesc]]
          rw [ih]
        · rw [show escChar c = [c] by
            unfold escChar
            rw [if_neg h1, if_neg h2, if_neg h3]]
          simp only [List.cons_append, List.nil_append]
          rw [unesc_cons_ne c h1, ih]

theorem dropPref_pre : ∀ (p x : List Char), dropPref p (p ++ x) = some x := by
  intro p
  induction p with
  | nil => intro x; rfl
  | cons c cs ih => intro x; simp [dropPref, ih]

theorem dropPref_append_none :
    ∀ (p q : List Char),
      (p.zip q).any (fun pr => decide (¬ pr.1 = pr.2)) = true →
      ∀ x : List Char, dropPref p (q ++ x) = none := by
  intro p
  induction p with
  | nil => intro q h; simp at h
  | cons a as ih =>
    intro q h x
    cases q with
    | nil => simp at h
    | cons b bs =>
      simp only [List.zip_cons_cons, List.any_cons, Bool.or_eq_true] at h
      by_cases hab : a = b
      · have hrest : (as.zip bs).any (fun pr => decide (¬ pr.1 = pr.2)) = true := by
          rcases h with h | h
          · simp [hab] at h
          · exact h
        simp only [List.cons_append, dropPref, if_pos hab]
        exact ih bs hrest x
      · simp [List.cons_append, dropPref, hab]

theorem splitLines_append (l : List Char) (rest : List Char) (h : ¬ '\n' ∈ l) :
    splitLines (l ++ '\n' :: rest) = l :: splitLines rest := by
  induction l with
  | nil => simp [splitLines]
  | cons c t ih =>
    have hc : ¬ c = '\n' := fun hc => h (by rw [hc]; exact List.mem_cons_self _ _)
    have ht : ¬ '\n' ∈ t := fun hm => h (List.mem_cons_of_mem _ hm)
    simp only [List.cons_append, splitLines, if_neg hc]
    rw [List.append_eq, ih ht]

theorem splitLines_joinLines :
    ∀ ls : List (List Char), (∀ l ∈ ls, ¬ '\n' ∈ l) →
      splitLines (joinLines ls) = ls ++ [[]] := by
  intro ls
  induction ls with
  | nil => intro _; simp [joinLines, splitLines]
  | cons l t ih =>
    intro h
    simp only [joinLines]
    rw [splitLines_append l (joinLines t) (h l (List.mem_cons_self _ _))]
    rw [ih (fun x hx => h x (List.mem_cons_of_mem _ hx))]
    rfl

theorem tryField_take (p v : List Char) (ls : List (List Char)) :
    tryField p ((p ++ v) :: ls) = (some v, ls) := by
  simp [tryField, dropPref_pre]

theorem tryField_skip (p : List Char) (ls : List (List Char))
    (h : ∀ l, ls.head? = some l → dropPref p l = none) :
    tryField p ls = (none, ls) := by
  cases ls with
  | nil => rfl
  | cons l t =>
    have hl := h l rfl
    simp [tryField, hl]

theorem headNone_app (p : List Char) (xs ys : List (List Char))
    (h1 : ∀ l, xs.head? = some l → dropPref p l = none)
    (h2 : ∀ l, ys.head? = some l → dropPref p l = none) :
    ∀ l, (xs ++ ys).head? = some l → dropPref p l = none := by
  cases xs with
  | nil => simpa using h2
  | cons x t =>
    intro l hl
    simp only [List.cons_append, List.head?_cons, Option.some.injEq] at hl
    subst hl
    exact h1 x rfl

theorem headNone_opt (p q : List Char) (v : Option String)
    (h : ∀ x, dropPref p (q ++ x) = none) :
    ∀ l, (optLine q v).head? = some l → dropPref p l = none := by
  cases v with
  | none => intro l hl; simp [optLine] at hl
  | some s =>
    intro l hl
    simp only [optLine, List.head?_cons, Option.some.injEq] at hl
    subst hl
    exact h _

theorem headNone_doc (p : List Char)
    (hN : ∀ x, dropPref p (pN ++ x) = none)
    (hnil : dropPref p [] = none) :
    ∀ (es : List IndexEntry) (l : List Char),
      (docLines es ++ [[]]).head? = some l → dropPref p l = none := by
  intro es
  cases es with
  | nil =>
    intro l hl
    simp only [docLines, List.flatMap_nil, List.nil_append, List.head?_cons,
      Option.some.injEq] at hl
    subst hl
    exact hnil
  | cons o t =>
    intro l hl
    simp only [docLines, List.flatMap_cons, entryLines, List.cons_append,
      List.head?_cons, Option.some.injEq] at hl
    subst hl
    exact hN _

theorem tfOpt (p : List Char) (v : Option String) (R : List (List Char))
    (h : v = none → ∀ l, R.head? = some l → dropPref p l = none) :
    tryField p (optLine p v ++ R) = (v.map fun s => esc s.data, R) := by
  cases v with
  | none => simpa [optLine] using tryField_skip p R (h rfl)
  | some s => simp [optLine, tryField_take]

theorem strOf_esc (s : String) : strOf (esc s.data) = s := by
  unfold strOf
  rw [unesc_esc]

theorem optEsc_round (v : Option String) :
    Option.map (strOf ∘ fun s => esc s.data) v = v := by
  cases v with
  | none => rfl
  | some s => simp [strOf_esc]

theorem entryLines_no_nl (o : IndexEntry) : ∀ l ∈ entryLines o, ¬ '\n' ∈ l := by
  have hp : ∀ (p s : List Char), ¬ '\n' ∈ p → ¬ '\n' ∈ p ++ esc s := by
    intro p s hpn hmem
    rcases List.mem_append.mp hmem with h | h
    · exact hpn h
    · exact esc_no_nl s h
  have hopt : ∀ (p q : List Char) (v : Option String), ¬ '\n' ∈ q →
      ∀ l ∈ optLine q v, ¬ '\n' ∈ l := by
    intro p q v hqn l hl
    cases v with
    | none => simp [optLine] at hl
    | some s =>
      simp only [optLine, List.mem_singleton] at hl
      subst hl
      exact hp q _ hqn
  intro l hl
  simp only [entryLines] at hl
  rcases List.mem_cons.mp hl with rfl | hl
  · exact hp pN _ (by decide)
  rcases List.mem_cons.mp hl with rfl | hl
  · exact hp pT _ (by decide)
  rcases List.mem_append.mp hl with hl | hl
  · rcases List.mem_append.mp hl with hl | hl
    · rcases List.mem_append.mp hl with hl | hl
      · exact hopt pA pA o.artifact_uri (by decide) l hl
      · exact hopt pD pD o.display_uri (by decide) l hl
    · exact hopt pTh pTh o.thumbnail_uri (by decide) l hl
  · exact hopt pM pM o.metadata (by decide) l hl

theorem docLines_no_nl (es : List IndexEntry) : ∀ l ∈ docLines es, ¬ '\n' ∈ l := by
  intro l hl
  rw [docLines, List.mem_flatMap] at hl
  obtain ⟨o, -, hl⟩ := hl
  exact entryLines_no_nl o l hl

theorem parseEntries_doc : ∀ es : List IndexEntry,
    parseEntries (docLines es ++ [[]]) = some es := by
  intro es
  induction es with
  | nil =>
    simp only [docLines, List.flatMap_nil, List.nil_append]
    simp only [parseEntries]
    rw [show dropPref pN [] = none from by decide]
    simp
  | cons o es ih =>
    obtain ⟨nm, ty, oa, od, ot, om⟩ := o
    have hD_A := headNone_doc pA (dropPref_append_none pA pN (by decide)) (by decide) es
    have hD_D := headNone_doc pD (dropPref_append_none pD pN (by decide)) (by decide) es
    have hD_Th := headNone_doc pTh (dropPref_append_none pTh pN (by decide)) (by decide) es
    have hD_M := headNone_doc pM (dropPref_append_none pM pN (by decide)) (by decide) es
    have hR_Th : ∀ l, (optLine pM om ++ (docLines es ++ [[]])).head? = some l →
        dropPref pTh l = none :=
      headNone_app pTh _ _
        (headNone_opt pTh pM om (dropPref_append_none pTh pM (by decide))) hD_Th
    have hR_D : ∀ l,
        (optLine pTh ot ++ (optLine pM om ++ (docLines es ++ [[]]))).head? = some l →
        dropPref pD l = none :=
      headNone_app pD _ _
        (headNone_opt pD pTh ot (dropPref_append_none pD pTh (by decide)))
        (headNone_app pD _ _
          (headNone_opt pD pM om (dropPref_append_none pD pM (by decide))) hD_D)
    have hR_A : ∀ l,
        (optLine pD od ++ (optLine pTh ot ++ (optLine pM om ++
          (docLines es ++ [[]])))).head? = some l →
        dropPref pA l = none :=
      headNone_app pA _ _
        (headNone_opt pA pD od (dropPref_append_none pA pD (by decide)))
        (headNone_app pA _ _
          (headNone_opt pA pTh ot (dropPref_append_none pA pTh (by decide)))
          (headNone_app pA _ _
            (headNone_opt pA pM om (dropPref_append_none pA pM (by decide))) hD_A))
    have e1 : tryField pA (optLine pA oa ++ (optLine pD od ++ (optLine pTh ot ++
        (optLine pM om ++ (docLines es ++ [[]]))))) =
        (oa.map fun s => esc s.data,
         optLine pD od ++ (optLine pTh ot ++ (optLine pM om ++
           (docLines es ++ [[]])))) :=
      tfOpt pA oa _ (fun _ => hR_A)
    have e2 : tryField pD (optLine pD od ++ (optLine pTh ot ++
        (optLine pM om ++ (docLines es ++ [[]])))) =
        (od.map fun s => esc s.data,
         optLine pTh ot ++ (optLine pM om ++ (docLines es ++ [[]]))) :=
      tfOpt pD od _ (fun _ => hR_D)
    have e3 : tryField pTh (optLine pTh ot ++ (optLine pM om ++
        (docLines es ++ [[]]))) =
        (ot.map fun s => esc s.data, optLine pM om ++ (docLines es ++ [[]])) :=
      tfOpt pTh ot _ (fun _ => hR_Th)
    have e4 : tryField pM (optLine pM om ++ (docLines es ++ [[]])) =
        (om.map fun s => esc s.data, docLines es ++ [[]]) :=
      tfOpt pM om _ (fun _ => hD_M)
    have hdoc : docLines (⟨nm, ty, oa, od, ot, om⟩ :: es) ++ [[]]
        = (pN ++ esc nm.data) :: (pT ++ esc ty.data) ::
          (optLine pA oa ++ (optLine pD od ++ (optLine pTh ot ++
            (optLine pM om ++ (docLines es ++ [[]]))))) := by
      simp [docLines, entryLines, List.append_assoc]
    rw [hdoc]
    simp only [parseEntries, dropPref_pre, e1, e2, e3, e4, ih]
    simp [strOf_esc, optEsc_round]

theorem loadIndex_dumpIndex (es : List IndexEntry) :
    loadIndex (dumpIndex es) = some es := by
  unfold loadIndex dumpIndex
  rw [show (String.mk (joinLines (docLines es))).data = joinLines (docLines es)
    from rfl]
  rw [splitLines_joinLines (docLines es) (docLines_no_nl es)]
  exact parseEntries_doc es

theorem selectAddrs_append (f : String → List Token) (l1 l2 : List String) :
    selectAddrs f (l1 ++ l2)
      = ((selectAddrs f l1).1 ++ (selectAddrs f l2).1,
         (selectAddrs f l1).2 ++ (selectAddrs f l2).2) := by
  induction l1 with
  | nil => simp [selectAddrs]
  | cons a t ih =>
    simp only [List.cons_append, selectAddrs]
    by_cases hf : f a = []
    · simp [hf, ih]
    · simp [hf, ih]

theorem selectAddrs_empty_iff (f : String → List Token) :
    ∀ l : List String, (selectAddrs f l).2 = [] ↔ ∀ a ∈ l, f a = [] := by
  intro l
  induction l with
  | nil => simp [selectAddrs]
  | cons a t ih =>
    simp only [selectAddrs, List.forall_mem_cons]
    by_cases hf : f a = []
    · simp [hf, ih]
    · simp [hf, ih, List.append_eq_nil]

/-- C1 (code bug): for a stored object whose recomputed content address
(`QmB`, as reported by the hashing tool's output line `added QmB QmA`)
differs from its declared address `QmA`, `checkLocalBackup` reports status
`true` (✅, ok).  The mismatch branch guards on `match[1] === hash` (the
recomputed address equal to the declared one) and only then tests
`match[2] !== match[1]` (the file name against the recomputed address), so
a recomputed address that differs from the declared one never sets the
status to `false` — the claimed `mismatch` report is unreachable for
tampered objects. -/
theorem verify_tampered_reports_ok :
    checkLocalBackup urlHostModel (fun h => decide (h = "QmA"))
        (fun _ => "added QmB QmA") true true
        [⟨"t", "T", some "ipfs://QmA", none, none, none⟩]
      = .finished ⟨[("QmA", true)], ["QmA"],
          [⟨"t", FieldKey.artifact_uri, "QmA", true⟩]⟩ := by
  decide

/-- C2: in one backup run the fetch tool is invoked at most once per
content address, in one verification run the hashing tool is invoked at
most once per content address, and any two verification report lines for
the same address carry the identical status — all enforced by the
run-scoped `hashes` seen-set and `statuses` memo map consulted before any
per-reference work.  This holds for every run that performed work,
completed or aborted. -/
theorem dedup_at_most_once (u : String → Option String) (f stored : String → Bool)
    (addOut : String → String) (index : List IndexEntry) (s0 : List String)
    (ipfs : Bool) (stB : BackupState) (stC : CheckState)
    (hB : (localBackup u f true index s0).state = some stB)
    (hC : (checkLocalBackup u stored addOut true ipfs index).state = some stC) :
    (∀ a, stB.events.countP (fun e => decide (e = BackupEvent.fetch a)) ≤ 1) ∧
    (∀ a, stC.events.countP (fun x => decide (x = a)) ≤ 1) ∧
    (∀ r1 ∈ stC.report, ∀ r2 ∈ stC.report,
      r1.hash = r2.hash → r1.status = r2.status) := by
  have hBI := localBackup_state_BInv u f index s0 stB hB
  have hCI := checkLocalBackup_state_CInv u stored addOut ipfs index stC hC
  refine ⟨fun a => BInv_fetch_count index f s0 stB hBI a, ?_, ?_⟩
  · intro a
    obtain ⟨h1, -, h3, -⟩ := hCI
    rw [h3]
    exact countP_le_one_of_nodup _ (List.Nodup.filter _ h1) a
  · intro r1 hr1 r2 hr2 hh
    obtain ⟨-, -, -, h4⟩ := hCI
    rw [h4 r1 hr1, h4 r2 hr2, hh]

/-- C3: backup synchronization is idempotent — if a first run completed
with no failed fetch, a second run over the same manifest against the
resulting storage performs zero fetch invocations and records every
processed address as skipped. -/
theorem backup_idempotent (u : String → Option String) (f : String → Bool)
    (index : List IndexEntry) (s0 : List String) (st1 : BackupState)
    (h1 : localBackup u f true index s0 = .finished st1)
    (hfull : ∀ p ∈ st1.report, p.2 ≠ BackupOutcome.failed) :
    ∃ st2, localBackup u f true index st1.storage = .finished st2 ∧
      (∀ e ∈ st2.events, ∀ a, e ≠ BackupEvent.fetch a) ∧
      st2.report = st1.report.map (fun p => (p.1, BackupOutcome.skipped)) := by
  obtain ⟨addrs, hp, hst1⟩ := localBackup_finished_elim u f index s0 st1 h1
  have hB1 : BInv index f s0 st1 :=
    localBackup_state_BInv u f index s0 st1 (by rw [h1]; rfl)
  obtain ⟨hn1, hsto1, hrep1, hev1⟩ := hB1
  have hpresent : ∀ a ∈ st1.hashes, a ∈ st1.storage := by
    intro a ha
    have hrp : (a, backupOutcome0 f s0 a) ∈ st1.report := by
      rw [hrep1]
      exact List.mem_map_of_mem _ ha
    have hnf := hfull _ hrp
    rw [hsto1, List.mem_append]
    by_cases has0 : a ∈ s0
    · exact Or.inl has0
    · right
      rw [List.mem_filter]
      refine ⟨ha, ?_⟩
      simp only [backupOutcome0, if_neg has0] at hnf
      by_cases hfa : f a = true
      · simp [has0, hfa]
      · rw [if_neg hfa] at hnf
        exact absurd rfl hnf
  have h2run := localBackup_finished_of_parseAll u f index st1.storage addrs hp
  have hB2 : BInv index f st1.storage
      (addrs.foldl (backupStep f)
        ⟨[], st1.storage, [BackupEvent.writeManifest index], []⟩) :=
    foldl_backupStep_BInv index f st1.storage addrs _
      (BInv_init index f st1.storage)
  obtain ⟨hn2, hsto2, hrep2, hev2⟩ := hB2
  have hh2 : (addrs.foldl (backupStep f)
      ⟨[], st1.storage, [BackupEvent.writeManifest index], []⟩).hashes
      = st1.hashes := by
    rw [foldl_backupStep_hashes, hst1, foldl_backupStep_hashes]
  refine ⟨_, h2run, ?_, ?_⟩
  · intro e he a
    rw [hev2] at he
    rcases List.mem_cons.mp he with rfl | he
    · intro hc
      cases hc
    · have hfe : ((addrs.foldl (backupStep f)
          ⟨[], st1.storage, [BackupEvent.writeManifest index], []⟩).hashes.filter
          fun a => decide (¬ a ∈ st1.storage)) = [] := by
        rw [List.filter_eq_nil_iff]
        intro b hb
        rw [hh2] at hb
        simp [hpresent b hb]
      rw [hfe] at he
      simp at he
  · rw [hrep2, hrep1, hh2, List.map_map]
    apply List.map_congr_left
    intro a ha
    have hin : a ∈ st1.storage := hpresent a ha
    simp [backupOutcome0, hin, Function.comp]

/-- C4: with the fetch tool available and every reference parseable, a
backup run always completes (a fetch failure never aborts it), and its
report covers every referenced unique address exactly, each with the
outcome determined independently of all other addresses: skipped when
already present, fetched when `ipget` succeeds, failed otherwise. -/
theorem backup_partial_failure_isolated (u : String → Option String)
    (f : String → Bool) (index : List IndexEntry) (s0 : List String)
    (addrs : List String) (hp : refAddresses u index = some addrs) :
    ∃ st, localBackup u f true index s0 = .finished st ∧
      (∀ a ∈ addrs, (a, backupOutcome0 f s0 a) ∈ st.report) ∧
      (∀ p ∈ st.report, p.1 ∈ addrs ∧ p.2 = backupOutcome0 f s0 p.1) := by
  have hfin := localBackup_finished_of_parseAll u f index s0 addrs hp
  have hBI : BInv index f s0 (addrs.foldl (backupStep f)
      ⟨[], s0, [BackupEvent.writeManifest index], []⟩) :=
    foldl_backupStep_BInv index f s0 addrs _ (BInv_init index f s0)
  obtain ⟨-, -, hrep, -⟩ := hBI
  have hmem : ∀ a, a ∈ (addrs.foldl (backupStep f)
      ⟨[], s0, [BackupEvent.writeManifest index], []⟩).hashes ↔ a ∈ addrs := by
    intro a
    rw [foldl_backupStep_hashes]
    have h2 := mem_append_newAddrs a addrs ([] : List String)
    simpa using h2
  refine ⟨_, hfin, ?_, ?_⟩
  · intro a ha
    rw [hrep]
    exact List.mem_map_of_mem _ ((hmem a).mpr ha)
  · intro p hp2
    rw [hrep] at hp2
    obtain ⟨a, ha, rfl⟩ := List.mem_map.mp hp2
    exact ⟨(hmem a).mp ha, rfl⟩

/-- C5: the CID export of a manifest whose references all parse is exactly
the newline-delimited text of the distinct referenced addresses in
first-seen order across entries and field roles, each address exactly
once. -/
theorem cid_export_first_seen_unique (u : String → Option String)
    (index : List IndexEntry) (addrs : List String)
    (hp : refAddresses u index = some addrs) :
    cidList u index = .finished ⟨firstSeen addrs, linesText (firstSeen addrs)⟩ ∧
    (firstSeen addrs).Nodup ∧ (∀ a, a ∈ firstSeen addrs ↔ a ∈ addrs) :=
  ⟨cidList_finished_of_parseAll u index addrs hp, nodup_firstSeen addrs,
   fun a => mem_firstSeen addrs a⟩

/-- C6: manifest persistence round-trips losslessly — loading a saved
manifest returns it exactly, with entry order, field-role keys, and URI
strings preserved. -/
theorem manifest_round_trip (m : List IndexEntry) :
    loadIndex (dumpIndex m) = some m :=
  loadIndex_dumpIndex m

/-- C9: in every backup run that performed work (completed or aborted by a
parse exception), the manifest write is the first event of the trace and
every later event is a fetch — so the full manifest is persisted before
the first fetch is attempted, and the persisted document loads back to the
manifest even when every fetch fails. -/
theorem manifest_written_before_fetches (u : String → Option String)
    (f : String → Bool) (index : List IndexEntry) (s0 : List String)
    (st : BackupState) (h : (localBackup u f true index s0).state = some st) :
    st.events.head? = some (BackupEvent.writeManifest index) ∧
    (∀ e ∈ st.events.tail, ∃ a, e = BackupEvent.fetch a) ∧
    loadIndex (dumpIndex index) = some index := by
  obtain ⟨-, -, -, hev⟩ := localBackup_state_BInv u f index s0 st h
  refine ⟨by rw [hev]; rfl, ?_, loadIndex_dumpIndex index⟩
  intro e he
  rw [hev] at he
  simp only [List.tail_cons] at he
  obtain ⟨a, -, rfl⟩ := List.mem_map.mp he
  exact ⟨a, rfl⟩

/-- C7 (code bug): the tool-availability check does not protect the
operation's work, in two ways.  (1) Backup: `main` runs the whole discovery
(`getTokenData` queries every filter address over the network) before
`localBackup` performs its `ipget` check, so with `ipget` absent the
queried-address list is nonempty although the run ends `toolMissing`.
(2) Verification: `checkLocalBackup` probes `command -v ipget` — although
its own error message names `ipfs` — and never checks the hashing tool it
actually uses, so with `ipfs` absent (and `ipget` present) a verification
run over a manifest whose object is missing performs its work and
completes with a report, instead of failing the precondition before any
work. -/
theorem tool_check_not_before_work :
    mainLocalBackup
        (fun _ => [⟨"t", "T", some "ipfs://QmA", none, none, none, 1⟩])
        (fun _ => []) urlHostModel (fun _ => true) false (some ["tz1a"]) none []
      = (["tz1a"], some RunOutcome.toolMissing) ∧
    checkLocalBackup urlHostModel (fun _ => false) (fun _ => "") true false
        [⟨"t", "T", some "ipfs://QmA", none, none, none⟩]
      = .finished ⟨[("QmA", false)], [],
          [⟨"t", FieldKey.artifact_uri, "QmA", false⟩]⟩ :=
  ⟨by decide, by decide⟩

/-- C8: a single address filter matching zero records only produces a
warning — the aggregate result equals the one with that filter removed and
processing continues with the remaining filters — while the run fails
(`Error: no token selected.`, exit 1, modeled as `none`) exactly when every
filter over every selection matches zero records. -/
theorem empty_selection_fatal (ct ht : String → List Token)
    (xs ys : List String) (a : String) (holders : Option (List String))
    (ha : ct a = []) :
    ((getTokenData ct ht (some (xs ++ a :: ys)) holders).2
        = (getTokenData ct ht (some (xs ++ ys)) holders).2 ∧
      a ∈ (getTokenData ct ht (some (xs ++ a :: ys)) holders).1) ∧
    ((getTokenData ct ht (some (xs ++ a :: ys)) holders).2 = none
        ↔ (∀ x ∈ xs ++ a :: ys, ct x = []) ∧
          (∀ x ∈ holders.getD [], ht x = [])) := by
  have hsingle : selectAddrs ct [a] = ([a], []) := by simp [selectAddrs, ha]
  have hsplit : selectAddrs ct (xs ++ a :: ys)
      = ((selectAddrs ct xs).1 ++ [a] ++ (selectAddrs ct ys).1,
         (selectAddrs ct xs).2 ++ (selectAddrs ct ys).2) := by
    rw [show xs ++ a :: ys = xs ++ ([a] ++ ys) from by simp]
    rw [selectAddrs_append, selectAddrs_append, hsingle]
    simp
  have hsplit2 : selectAddrs ct (xs ++ ys)
      = ((selectAddrs ct xs).1 ++ (selectAddrs ct ys).1,
         (selectAddrs ct xs).2 ++ (selectAddrs ct ys).2) :=
    selectAddrs_append ct xs ys
  refine ⟨⟨?_, ?_⟩, ?_⟩
  · simp only [getTokenData, Option.getD_some, hsplit, hsplit2]
  · simp [getTokenData, hsplit]
  · simp only [getTokenData, Option.getD_some, hsplit]
    have hif : ∀ tk : List Token,
        ((if tk = [] then none else some (buildIndex tk)) = (none : Option (List IndexEntry)))
          ↔ tk = [] := by
      intro tk
      by_cases h0 : tk = [] <;> simp [h0]
    rw [hif, List.append_eq_nil, List.append_eq_nil,
        selectAddrs_empty_iff, selectAddrs_empty_iff, selectAddrs_empty_iff]
    constructor
    · rintro ⟨⟨hx, hy⟩, hh⟩
      refine ⟨?_, hh⟩
      intro x hxm
      rcases List.mem_append.mp hxm with hm | hm
      · exact hx x hm
      · rcases List.mem_cons.mp hm with rfl | hm
        · exact ha
        · exact hy x hm
    · rintro ⟨hc, hh⟩
      refine ⟨⟨?_, ?_⟩, hh⟩
      · intro x hm
        exact hc x (List.mem_append.mpr (Or.inl hm))
      · intro x hm
        exact hc x (List.mem_append.mpr (Or.inr (List.mem_cons_of_mem _ hm)))

/-- C10: the extractor's scheme check is only a string-prefix test, so a
field value starting with `ipfs:` but unparseable as a URL (the oracle
returns `none`, as the WHATWG parser throws) is admitted into the
manifest; deriving its content address then throws: unhandled in backup
and export, aborting the entire run (`uncaught`), while verification
catches the same exception and turns it into a reported fatal error
(`caughtFatal`, `console.error` + exit 1). -/
theorem scheme_check_admits_unparseable (t : Token) (v : String)
    (u : String → Option String) (f stored : String → Bool)
    (addOut : String → String) (s0 : List String)
    (hv : t.artifact_uri = some v) (hpre : strStartsWith "ipfs:" v = true)
    (hu : u v = none) :
    (mkEntry t).artifact_uri = some v ∧
    localBackup u f true [mkEntry t] s0
      = .uncaught ⟨[], s0, [BackupEvent.writeManifest [mkEntry t]], []⟩ ∧
    cidList u [mkEntry t] = .uncaught ⟨[], ""⟩ ∧
    checkLocalBackup u stored addOut true true [mkEntry t]
      = .caughtFatal ⟨[], [], []⟩ := by
  have hart : (mkEntry t).artifact_uri = some v := by
    simp [mkEntry, keepIpfs, hv, hpre]
  have hget : (mkEntry t).get FieldKey.artifact_uri = some v := by
    simp [IndexEntry.get, hart]
  have hrefs : indexRefs [mkEntry t]
      = v :: [FieldKey.display_uri, FieldKey.thumbnail_uri,
              FieldKey.metadata].filterMap (mkEntry t).get := by
    simp [indexRefs, entryRefs, fieldKeys, List.filterMap_cons, hget]
  have htrip : refTriples [mkEntry t]
      = ((mkEntry t).name, FieldKey.artifact_uri, v) ::
        [FieldKey.display_uri, FieldKey.thumbnail_uri,
         FieldKey.metadata].filterMap
          (fun k => ((mkEntry t).get k).map fun w => ((mkEntry t).name, k, w)) := by
    simp [refTriples, fieldKeys, List.filterMap_cons, hget]
  refine ⟨hart, ?_, ?_, ?_⟩
  · unfold localBackup
    rw [hrefs]
    simp [runRefs, refStep, hu]
  · unfold cidList
    rw [hrefs]
    simp [runRefs, refStep, hu]
  · unfold checkLocalBackup
    rw [htrip]
    simp [runRefs, checkRef, hu]

theorem dedup_at_most_once_witness :
    (∀ a, (⟨["QmA"], ["QmA"],
        [BackupEvent.writeManifest sampleDup, BackupEvent.fetch "QmA"],
        [("QmA", BackupOutcome.fetched)]⟩ : BackupState).events.countP
          (fun e => decide (e = BackupEvent.fetch a)) ≤ 1) ∧
    (∀ a, (⟨[("QmA", true)], ["QmA"],
        [⟨"e1", FieldKey.artifact_uri, "QmA", true⟩,
         ⟨"e1", FieldKey.display_uri, "QmA", true⟩]⟩ : CheckState).events.countP
          (fun x => decide (x = a)) ≤ 1) ∧
    (∀ r1 ∈ (⟨[("QmA", true)], ["QmA"],
        [⟨"e1", FieldKey.artifact_uri, "QmA", true⟩,
         ⟨"e1", FieldKey.display_uri, "QmA", true⟩]⟩ : CheckState).report,
      ∀ r2 ∈ (⟨[("QmA", true)], ["QmA"],
        [⟨"e1", FieldKey.artifact_uri, "QmA", true⟩,
         ⟨"e1", FieldKey.display_uri, "QmA", true⟩]⟩ : CheckState).report,
      r1.hash = r2.hash → r1.status = r2.status) :=
  dedup_at_most_once urlHostModel (fun _ => true) (fun _ => true) (fun _ => "")
    sampleDup [] true _ _ (by decide) (by decide)

theorem backup_idempotent_witness :
    ∃ st2, localBackup urlHostModel (fun _ => true) true sampleDup ["QmA"]
        = .finished st2 ∧
      (∀ e ∈ st2.events, ∀ a, e ≠ BackupEvent.fetch a) ∧
      st2.report = [("QmA", BackupOutcome.fetched)].map
        (fun p => (p.1, BackupOutcome.skipped)) :=
  backup_idempotent urlHostModel (fun _ => true) sampleDup []
    ⟨["QmA"], ["QmA"],
     [BackupEvent.writeManifest sampleDup, BackupEvent.fetch "QmA"],
     [("QmA", BackupOutcome.fetched)]⟩ (by decide) (by decide)

theorem backup_partial_failure_isolated_witness :
    ∃ st, localBackup urlHostModel (fun h => decide (¬ h = "QmB")) true
        sampleABC ["QmC"] = .finished st ∧
      (∀ a ∈ ["QmA", "QmB", "QmC"],
        (a, backupOutcome0 (fun h => decide (¬ h = "QmB")) ["QmC"] a) ∈ st.report) ∧
      (∀ p ∈ st.report, p.1 ∈ ["QmA", "QmB", "QmC"] ∧
        p.2 = backupOutcome0 (fun h => decide (¬ h = "QmB")) ["QmC"] p.1) :=
  backup_partial_failure_isolated urlHostModel (fun h => decide (¬ h = "QmB"))
    sampleABC ["QmC"] ["QmA", "QmB", "QmC"] (by decide)

theorem cid_export_first_seen_unique_witness :
    cidList urlHostModel sampleABAC
      = .finished ⟨firstSeen ["QmA", "QmB", "QmA", "QmC"],
                   linesText (firstSeen ["QmA", "QmB", "QmA", "QmC"])⟩ ∧
    (firstSeen ["QmA", "QmB", "QmA", "QmC"]).Nodup ∧
    (∀ a, a ∈ firstSeen ["QmA", "QmB", "QmA", "QmC"]
        ↔ a ∈ ["QmA", "QmB", "QmA", "QmC"]) :=
  cid_export_first_seen_unique urlHostModel sampleABAC
    ["QmA", "QmB", "QmA", "QmC"] (by decide)

theorem empty_selection_fatal_witness :
    ((getTokenData
        (fun x => if x = "tz1a" then []
          else [⟨"t", "T", some "ipfs://QmA", none, none, none, 1⟩])
        (fun _ => []) (some (["tz1b"] ++ "tz1a" :: [])) none).2
      = (getTokenData
          (fun x => if x = "tz1a" then []
            else [⟨"t", "T", some "ipfs://QmA", none, none, none, 1⟩])
          (fun _ => []) (some (["tz1b"] ++ [])) none).2 ∧
      "tz1a" ∈ (getTokenData
        (fun x => if x = "tz1a" then []
          else [⟨"t", "T", some "ipfs://QmA", none, none, none, 1⟩])
        (fun _ => []) (some (["tz1b"] ++ "tz1a" :: [])) none).1) ∧
    ((getTokenData
        (fun x => if x = "tz1a" then []
          else [⟨"t", "T", some "ipfs://QmA", none, none, none, 1⟩])
        (fun _ => []) (some (["tz1b"] ++ "tz1a" :: [])) none).2 = none
      ↔ (∀ x ∈ ["tz1b"] ++ "tz1a" :: [],
          (fun x => if x = "tz1a" then []
            else [⟨"t", "T", some "ipfs://QmA", none, none, none, 1⟩] :
              String → List Token) x = []) ∧
        (∀ x ∈ (none : Option (List String)).getD [],
          (fun _ => [] : String → List Token) x = [])) :=
  empty_selection_fatal
    (fun x => if x = "tz1a" then []
      else [⟨"t", "T", some "ipfs://QmA", none, none, none, 1⟩])
    (fun _ => []) ["tz1b"] [] "tz1a" none (by decide)

theorem manifest_written_before_fetches_witness :
    ([BackupEvent.writeManifest sampleDup, BackupEvent.fetch "QmA"]
        : List BackupEvent).head? = some (BackupEvent.writeManifest sampleDup) ∧
    (∀ e ∈ ([BackupEvent.writeManifest sampleDup, BackupEvent.fetch "QmA"]
        : List BackupEvent).tail, ∃ a, e = BackupEvent.fetch a) ∧
    loadIndex (dumpIndex sampleDup) = some sampleDup :=
  manifest_written_before_fetches urlHostModel (fun _ => false) sampleDup []
    ⟨["QmA"], [],
     [BackupEvent.writeManifest sampleDup, BackupEvent.fetch "QmA"],
     [("QmA", BackupOutcome.failed)]⟩ (by decide)

theorem scheme_check_admits_unparseable_witness :
    (mkEntry ⟨"n", "T", some "ipfs://a b", none, none, none, 0⟩).artifact_uri
        = some "ipfs://a b" ∧
    localBackup urlHostModel (fun _ => true) true
        [mkEntry ⟨"n", "T", some "ipfs://a b", none, none, none, 0⟩] []
      = .uncaught ⟨[], [],
          [BackupEvent.writeManifest
            [mkEntry ⟨"n", "T", some "ipfs://a b", none, none, none, 0⟩]], []⟩ ∧
    cidList urlHostModel
        [mkEntry ⟨"n", "T", some "ipfs://a b", none, none, none, 0⟩]
      = .uncaught ⟨[], ""⟩ ∧
    checkLocalBackup urlHostModel (fun _ => false) (fun _ => "") true true
        [mkEntry ⟨"n", "T", some "ipfs://a b", none, none, none, 0⟩]
      = .caughtFatal ⟨[], [], []⟩ :=
  scheme_check_admits_unparseable
    ⟨"n", "T", some "ipfs://a b", none, none, none, 0⟩ "ipfs://a b"
    urlHostModel (fun _ => true) (fun _ => false) (fun _ => "") []
    rfl (by decide) (by decide)
